import Mathlib

/-!
Verification of the PRISM parallel batch-processing orchestrator.

Shallow embedding of the row-range planner (O_orchestrator.py), the
checkpoint serializer (S_serializer.py), the processing engine
(P_processor.py) and the worker status protocol (W_worker.py), with
theorems settling the specification claims about them.
-/

namespace PRISM

/-! ## Orchestrator: row-range planning (O_orchestrator.py, calculate_row_ranges) -/

/-- One planned range, the dict `start / end / worker_id` built by
`Orchestrator.calculate_row_ranges`.  Python `end` is spelled `stop`
(a Lean keyword).  Python integers are unbounded, hence `Int`. -/
structure RowRange where
  start : Int
  stop : Int
  worker_id : Int
deriving DecidableEq, Repr

/-- The loop body of `calculate_row_ranges`: iterates `n` more workers,
`i` worker indices already emitted, `start` the running start position.
`q = rows_per_worker = total_rows // num_workers`,
`r = remainder = total_rows % num_workers`. -/
def rangesAux (q : Int) (r : ℕ) : ℕ → ℕ → Int → List RowRange
  | 0, _, _ => []
  | n + 1, i, start =>
      let extra : Int := if i < r then 1 else 0
      let e : Int := start + q + extra - 1
      ⟨start, e, (i : Int) + 1⟩ :: rangesAux q r n (i + 1) (e + 1)

/-- `Orchestrator.calculate_row_ranges(total_rows, num_workers)`:
base size `total_rows // num_workers` per worker, the remainder
distributed one extra row to the earliest workers, starts at row 1. -/
def calculate_row_ranges (total_rows num_workers : ℕ) : List RowRange :=
  rangesAux ((total_rows / num_workers : ℕ) : Int) (total_rows % num_workers)
    num_workers 0 1

/-- Count of loop iterations `i, i+1, ..., i+n-1` that receive an extra row
(`extra = 1`, i.e. iteration index `< r`). -/
def extrasCount (r : ℕ) : ℕ → ℕ → ℕ
  | _, 0 => 0
  | i, n + 1 => (if i < r then 1 else 0) + extrasCount r (i + 1) n

theorem rangesAux_cons (q : Int) (r n i : ℕ) (start : Int) :
    rangesAux q r (n + 1) i start
      = ⟨start, start + q + (if i < r then 1 else 0) - 1, (i : Int) + 1⟩
        :: rangesAux q r n (i + 1)
            (start + q + (if i < r then 1 else 0) - 1 + 1) := rfl

theorem getLast?_cons_ne {α : Type} (x : α) (l : List α) (h : l ≠ []) :
    (x :: l).getLast? = l.getLast? := by
  cases l with
  | nil => exact absurd rfl h
  | cons y ys => exact List.getLast?_cons_cons

theorem rangesAux_length (q : Int) (r : ℕ) :
    ∀ (n i : ℕ) (start : Int), (rangesAux q r n i start).length = n := by
  intro n
  induction n with
  | zero => intro i start; rfl
  | succ n ih => intro i start; simp [rangesAux, ih]

theorem rangesAux_ne_nil (q : Int) (r n i : ℕ) (start : Int) (hn : 1 ≤ n) :
    rangesAux q r n i start ≠ [] := by
  intro hcon
  have := rangesAux_length q r n i start
  rw [hcon] at this
  simp at this
  omega

theorem rangesAux_head (q : Int) (r n : ℕ) (i : ℕ) (start : Int) (hn : 1 ≤ n) :
    (rangesAux q r n i start).head?.map RowRange.start = some start := by
  cases n with
  | zero => omega
  | succ n => rfl

theorem rangesAux_workerIds (q : Int) (r : ℕ) :
    ∀ (n i : ℕ) (start : Int),
      (rangesAux q r n i start).map RowRange.worker_id
        = (List.range n).map (fun j : ℕ => (i : Int) + (j : Int) + 1) := by
  intro n
  induction n with
  | zero => intro i start; rfl
  | succ n ih =>
      intro i start
      rw [rangesAux_cons, List.map_cons, ih, List.range_succ_eq_map,
        List.map_cons, List.map_map]
      refine congrArg₂ _ (by simp) ?_
      refine List.map_congr_left ?_
      intro j hj
      simp only [Function.comp_apply]
      push_cast
      ring

theorem rangesAux_sizes (q : Int) (r : ℕ) :
    ∀ (n i : ℕ) (start : Int),
      (rangesAux q r n i start).map (fun rr => rr.stop - rr.start + 1)
        = (List.range n).map (fun j => q + if i + j < r then 1 else 0) := by
  intro n
  induction n with
  | zero => intro i start; rfl
  | succ n ih =>
      intro i start
      rw [rangesAux_cons, List.map_cons, ih, List.range_succ_eq_map,
        List.map_cons, List.map_map]
      refine congrArg₂ _ (by dsimp only; rw [Nat.add_zero]; ring) ?_
      refine List.map_congr_left ?_
      intro j hj
      simp only [Function.comp_apply]
      have h : i + (j + 1) = (i + 1) + j := by omega
      rw [h]

theorem rangesAux_chain (q : Int) (r : ℕ) :
    ∀ (n i : ℕ) (start : Int),
      List.Chain' (fun a b => b.start = a.stop + 1) (rangesAux q r n i start) := by
  intro n
  induction n with
  | zero => intro i start; simp [rangesAux]
  | succ n ih =>
      intro i start
      cases n with
      | zero => simp [rangesAux]
      | succ m =>
          simp only [rangesAux]
          exact List.Chain'.cons rfl (ih _ _)

theorem rangesAux_getLast (q : Int) (r : ℕ) :
    ∀ (n i : ℕ) (start : Int), 1 ≤ n →
      (rangesAux q r n i start).getLast?.map RowRange.stop
        = some (start - 1 + n * q + (extrasCount r i n : Int)) := by
  intro n
  induction n with
  | zero => omega
  | succ n ih =>
      intro i start _
      cases n with
      | zero =>
          simp [rangesAux, extrasCount]
          ring
      | succ m =>
          rw [rangesAux_cons,
            getLast?_cons_ne _ _ (rangesAux_ne_nil q r (m + 1) _ _ (by omega)),
            ih (i + 1) _ (by omega)]
          congr 1
          simp only [extrasCount]
          push_cast
          ring

theorem extrasCount_min (r : ℕ) :
    ∀ (n i : ℕ), extrasCount r i n = min (i + n) r - min i r := by
  intro n
  induction n with
  | zero => intro i; simp [extrasCount]
  | succ n ih =>
      intro i
      simp only [extrasCount, ih (i + 1)]
      simp only [Nat.min_def]
      split_ifs <;> omega

/-- Bounds: every emitted range stays between the running `start` and the
final stop; in particular all starts are at least the initial start and all
stops are at most the last stop. -/
theorem rangesAux_bounds (q : Int) (r : ℕ) (hq : 0 ≤ q) :
    ∀ (n i : ℕ) (start : Int), 1 ≤ n →
      ∃ e, (rangesAux q r n i start).getLast?.map RowRange.stop = some e ∧
        start - 1 ≤ e ∧
        ∀ rr ∈ rangesAux q r n i start, start ≤ rr.start ∧ rr.stop ≤ e := by
  intro n
  induction n with
  | zero => omega
  | succ n ih =>
      intro i start _
      cases n with
      | zero =>
          refine ⟨start + q + (if i < r then 1 else 0) - 1, rfl, by split_ifs <;> omega, ?_⟩
          intro rr hrr
          simp only [rangesAux, List.mem_singleton] at hrr
          subst hrr
          exact ⟨le_refl _, le_refl _⟩
      | succ m =>
          obtain ⟨e, he, hge, hmem⟩ :=
            ih (i + 1) (start + q + (if i < r then 1 else 0) - 1 + 1) (by omega)
          have hst : start - 1 ≤ start + q + (if i < r then 1 else 0) - 1 := by
            split_ifs <;> omega
          refine ⟨e, ?_, by omega, ?_⟩
          · rw [rangesAux_cons,
              getLast?_cons_ne _ _ (rangesAux_ne_nil q r (m + 1) _ _ (by omega)), he]
          · intro rr hrr
            rw [rangesAux_cons, List.mem_cons] at hrr
            rcases hrr with hrr | hrr
            · subst hrr
              refine ⟨le_refl _, ?_⟩
              dsimp only
              omega
            · obtain ⟨h1, h2⟩ := hmem rr hrr
              exact ⟨by omega, h2⟩

/-- Coverage: any point between the running start and the final stop lies
in one of the emitted ranges. -/
theorem rangesAux_cover (q : Int) (r : ℕ) :
    ∀ (n i : ℕ) (start : Int) (e x : Int), 1 ≤ n →
      (rangesAux q r n i start).getLast?.map RowRange.stop = some e →
      start ≤ x → x ≤ e →
      ∃ rr ∈ rangesAux q r n i start, rr.start ≤ x ∧ x ≤ rr.stop := by
  intro n
  induction n with
  | zero => omega
  | succ n ih =>
      intro i start e x _ hlast hx1 hx2
      cases n with
      | zero =>
          simp only [rangesAux, List.getLast?, Option.map_some] at hlast
          refine ⟨⟨start, start + q + (if i < r then 1 else 0) - 1, (i : Int) + 1⟩,
            List.mem_singleton.mpr rfl, hx1, ?_⟩
          have he : start + q + (if i < r then 1 else 0) - 1 = e := by
            have := hlast
            simpa using this
          dsimp only
          omega
      | succ m =>
          by_cases hle : x ≤ start + q + (if i < r then 1 else 0) - 1
          · exact ⟨_, by rw [rangesAux_cons]; exact List.mem_cons_self _ _, hx1, hle⟩
          · rw [rangesAux_cons,
              getLast?_cons_ne _ _ (rangesAux_ne_nil q r (m + 1) _ _ (by omega))] at hlast
            obtain ⟨rr, hmem, h1, h2⟩ :=
              ih (i + 1) (start + q + (if i < r then 1 else 0) - 1 + 1) e x
                (by omega) hlast (by omega) hx2
            exact ⟨rr, by rw [rangesAux_cons]; exact List.mem_cons_of_mem _ hmem, h1, h2⟩

/-- Disjointness: the ranges are emitted with strictly separated intervals
(each earlier stop lies strictly below each later start). -/
theorem rangesAux_pairwise (q : Int) (r : ℕ) (hq : 0 ≤ q) :
    ∀ (n i : ℕ) (start : Int),
      List.Pairwise (fun a b => a.stop < b.start) (rangesAux q r n i start) := by
  intro n
  induction n with
  | zero => intro i start; simp [rangesAux]
  | succ n ih =>
      intro i start
      simp only [rangesAux]
      refine List.Pairwise.cons ?_ (ih _ _)
      intro rr hrr
      cases n with
      | zero => simp [rangesAux] at hrr
      | succ m =>
          obtain ⟨e, _, _, hmem⟩ :=
            rangesAux_bounds q r hq (m + 1) (i + 1)
              (start + q + (if i < r then 1 else 0) - 1 + 1) (by omega)
          have h1 := (hmem rr hrr).1
          dsimp only
          omega


theorem rangesAux_sumSizes (q : Int) (r : ℕ) :
    ∀ (n i : ℕ) (start : Int),
      ((rangesAux q r n i start).map (fun rr => rr.stop - rr.start + 1)).sum
        = n * q + (extrasCount r i n : Int) := by
  intro n
  induction n with
  | zero => intro i start; simp [rangesAux, extrasCount]
  | succ n ih =>
      intro i start
      rw [rangesAux_cons, List.map_cons, List.sum_cons, ih]
      dsimp only
      simp only [extrasCount]
      push_cast
      ring

theorem countP_range_lt (t : ℕ) :
    ∀ n : ℕ, (List.range n).countP (fun j => decide (j < t)) = min t n := by
  intro n
  induction n with
  | zero => simp
  | succ n ih =>
      rw [List.range_succ, List.countP_append, ih]
      by_cases h : n < t <;> simp [List.countP_cons, h] <;> omega

/-- The final stop of the auto plan is exactly `total_rows`. -/
theorem calculate_row_ranges_getLast (t n : ℕ) (hn : 1 ≤ n) :
    (calculate_row_ranges t n).getLast?.map RowRange.stop = some (t : Int) := by
  simp only [calculate_row_ranges]
  rw [rangesAux_getLast _ _ n 0 1 hn]
  congr 1
  rw [extrasCount_min]
  have hr : t % n < n := Nat.mod_lt t hn
  have hd : n * (t / n) + t % n = t := Nat.div_add_mod t n
  have hd' : (n : Int) * ((t / n : ℕ) : Int) + ((t % n : ℕ) : Int) = (t : Int) := by
    exact_mod_cast hd
  rw [Nat.zero_add, Nat.min_eq_right hr.le, Nat.zero_min, Nat.sub_zero]
  linarith

/-! ## Claim theorems for the auto-split planner -/

/-- C1: for `total_rows >= num_workers >= 1`, auto planning partitions
`[1, total_rows]` into `num_workers` contiguous, disjoint, non-empty,
1-indexed inclusive ranges with no gap and no overlap, each of base size
`total_rows / num_workers` with the remainder distributed one extra row
to the earliest ranges; in particular 100 rows over 3 workers gives
`[1,34], [35,67], [68,100]`. -/
theorem auto_partition_balanced (t n : ℕ) (hn : 1 ≤ n) (htn : n ≤ t) :
    (calculate_row_ranges t n).length = n ∧
    (calculate_row_ranges t n).head?.map RowRange.start = some 1 ∧
    (calculate_row_ranges t n).getLast?.map RowRange.stop = some (t : Int) ∧
    List.Chain' (fun a b => b.start = a.stop + 1) (calculate_row_ranges t n) ∧
    (calculate_row_ranges t n).map (fun rr => rr.stop - rr.start + 1)
      = (List.range n).map
          (fun j : ℕ => ((t / n : ℕ) : Int) + if j < t % n then 1 else 0) ∧
    (∀ rr ∈ calculate_row_ranges t n, rr.start ≤ rr.stop) ∧
    List.Pairwise (fun a b => a.stop < b.start) (calculate_row_ranges t n) ∧
    (∀ x : Int, (1 ≤ x ∧ x ≤ (t : Int)) ↔
      ∃ rr ∈ calculate_row_ranges t n, rr.start ≤ x ∧ x ≤ rr.stop) ∧
    calculate_row_ranges 100 3 = [⟨1, 34, 1⟩, ⟨35, 67, 2⟩, ⟨68, 100, 3⟩] := by
  have hq : (0 : Int) ≤ ((t / n : ℕ) : Int) := Int.natCast_nonneg _
  have hlast := calculate_row_ranges_getLast t n hn
  have hsizes : (calculate_row_ranges t n).map (fun rr => rr.stop - rr.start + 1)
      = (List.range n).map
          (fun j : ℕ => ((t / n : ℕ) : Int) + if j < t % n then 1 else 0) := by
    simp only [calculate_row_ranges]
    rw [rangesAux_sizes]
    simp only [Nat.zero_add]
  have hone : (1 : Int) ≤ ((t / n : ℕ) : Int) := by
    have : 1 ≤ t / n := (Nat.one_le_div_iff hn).mpr htn
    exact_mod_cast this
  have hnonempty : ∀ rr ∈ calculate_row_ranges t n, rr.start ≤ rr.stop := by
    intro rr hrr
    have hmem : rr.stop - rr.start + 1
        ∈ (calculate_row_ranges t n).map (fun rr => rr.stop - rr.start + 1) :=
      List.mem_map_of_mem _ hrr
    rw [hsizes] at hmem
    obtain ⟨j, hj, hval⟩ := List.mem_map.mp hmem
    split_ifs at hval <;> omega
  refine ⟨?_, ?_, hlast, ?_, hsizes, hnonempty, ?_, ?_, by decide⟩
  · simp only [calculate_row_ranges]; exact rangesAux_length _ _ _ _ _
  · simp only [calculate_row_ranges]; exact rangesAux_head _ _ _ _ _ hn
  · simp only [calculate_row_ranges]; exact rangesAux_chain _ _ _ _ _
  · simp only [calculate_row_ranges]; exact rangesAux_pairwise _ _ hq _ _ _
  · intro x
    constructor
    · rintro ⟨hx1, hx2⟩
      simp only [calculate_row_ranges] at hlast ⊢
      exact rangesAux_cover _ _ n 0 1 (t : Int) x hn hlast hx1 hx2
    · rintro ⟨rr, hrr, h1, h2⟩
      simp only [calculate_row_ranges] at hlast hrr
      obtain ⟨e, he, _, hmem⟩ := rangesAux_bounds _ _ hq n 0 1 hn
      rw [he] at hlast
      have het : e = (t : Int) := Option.some.inj hlast
      obtain ⟨hs, ht2⟩ := hmem rr hrr
      constructor <;> omega

theorem auto_partition_balanced_witness :
    1 ≤ 3 ∧ 3 ≤ 100 ∧
      calculate_row_ranges 100 3 = [⟨1, 34, 1⟩, ⟨35, 67, 2⟩, ⟨68, 100, 3⟩] :=
  ⟨by decide, by decide, (auto_partition_balanced 100 3 (by decide) (by decide)).2.2.2.2.2.2.2.2⟩

/-- C9: for every `total_rows` and `num_workers >= 1`, the plan has exactly
`num_workers` records with worker ids `1..num_workers` in order, first start 1,
each next start one past the previous stop, last stop `total_rows`, and the
range lengths `stop - start + 1` sum to `total_rows` (trailing ranges empty
when `total_rows < num_workers`). -/
theorem calculate_row_ranges_plan_invariants (t n : ℕ) (hn : 1 ≤ n) :
    (calculate_row_ranges t n).length = n ∧
    (calculate_row_ranges t n).map RowRange.worker_id
      = (List.range n).map (fun j : ℕ => (j : Int) + 1) ∧
    (calculate_row_ranges t n).head?.map RowRange.start = some 1 ∧
    List.Chain' (fun a b => b.start = a.stop + 1) (calculate_row_ranges t n) ∧
    (calculate_row_ranges t n).getLast?.map RowRange.stop = some (t : Int) ∧
    ((calculate_row_ranges t n).map (fun rr => rr.stop - rr.start + 1)).sum
      = (t : Int) := by
  have hlast := calculate_row_ranges_getLast t n hn
  refine ⟨?_, ?_, ?_, ?_, hlast, ?_⟩
  · simp only [calculate_row_ranges]; exact rangesAux_length _ _ _ _ _
  · simp only [calculate_row_ranges]
    rw [rangesAux_workerIds]
    refine List.map_congr_left ?_
    intro j hj
    simp
  · simp only [calculate_row_ranges]; exact rangesAux_head _ _ _ _ _ hn
  · simp only [calculate_row_ranges]; exact rangesAux_chain _ _ _ _ _
  · simp only [calculate_row_ranges] at hlast ⊢
    rw [rangesAux_getLast _ _ n 0 1 hn] at hlast
    have h := Option.some.inj hlast
    rw [rangesAux_sumSizes]
    linarith

theorem calculate_row_ranges_plan_invariants_witness :
    1 ≤ 5 ∧ (calculate_row_ranges 2 5).length = 5 :=
  ⟨by decide, (calculate_row_ranges_plan_invariants 2 5 (by decide)).1⟩

/-- C2 counterexample: with 2 rows and 3 workers the plan is NOT just the
2 non-empty ranges; a third, empty range with stop < start is present. -/
theorem auto_partition_small_total_counterexample :
    0 < 2 ∧ 2 < 3 ∧
    calculate_row_ranges 2 3 = [⟨1, 1, 1⟩, ⟨2, 2, 2⟩, ⟨3, 2, 3⟩] ∧
    (calculate_row_ranges 2 3).length = 3 ∧
    (∃ rr ∈ calculate_row_ranges 2 3, rr.stop < rr.start) := by
  refine ⟨by decide, by decide, by decide, by decide, ?_⟩
  exact ⟨⟨3, 2, 3⟩, by decide, by decide⟩

/-- C2 amended: with `0 < total_rows < num_workers` the plan still has
`num_workers` records: exactly `total_rows` of them are non-empty (each a
singleton) and the remaining records are empty ranges with
`stop = start - 1`, which DO appear in the returned plan. -/
theorem auto_partition_small_total_amended (t n : ℕ) (ht : 0 < t) (htn : t < n) :
    (calculate_row_ranges t n).length = n ∧
    (calculate_row_ranges t n).map (fun rr => rr.stop - rr.start + 1)
      = (List.range n).map (fun j : ℕ => if j < t then (1 : Int) else 0) ∧
    (calculate_row_ranges t n).countP (fun rr => rr.start ≤ rr.stop) = t ∧
    (∀ rr ∈ calculate_row_ranges t n, rr.stop < rr.start →
      rr.stop = rr.start - 1) := by
  have hdiv : t / n = 0 := Nat.div_eq_of_lt htn
  have hmod : t % n = t := Nat.mod_eq_of_lt htn
  have hsizes : (calculate_row_ranges t n).map (fun rr => rr.stop - rr.start + 1)
      = (List.range n).map (fun j : ℕ => if j < t then (1 : Int) else 0) := by
    simp only [calculate_row_ranges, hdiv, hmod, Nat.cast_zero]
    rw [rangesAux_sizes]
    simp only [Nat.zero_add, zero_add]
  have hsize01 : ∀ rr ∈ calculate_row_ranges t n,
      rr.stop - rr.start + 1 = 1 ∨ rr.stop - rr.start + 1 = 0 := by
    intro rr hrr
    have hmem : rr.stop - rr.start + 1
        ∈ (calculate_row_ranges t n).map (fun rr => rr.stop - rr.start + 1) :=
      List.mem_map_of_mem _ hrr
    rw [hsizes] at hmem
    obtain ⟨j, hj, hval⟩ := List.mem_map.mp hmem
    split_ifs at hval
    · left; omega
    · right; omega
  refine ⟨?_, hsizes, ?_, ?_⟩
  · simp only [calculate_row_ranges]; exact rangesAux_length _ _ _ _ _
  · have hc1 : (calculate_row_ranges t n).countP (fun rr => rr.start ≤ rr.stop)
        = (calculate_row_ranges t n).countP
            (fun rr => 0 < rr.stop - rr.start + 1) := by
      refine List.countP_congr ?_
      intro rr hrr
      simp only [decide_eq_true_eq]
      constructor <;> intro h <;> omega
    have hc2 : (calculate_row_ranges t n).countP
          (fun rr => 0 < rr.stop - rr.start + 1)
        = ((calculate_row_ranges t n).map
            (fun rr => rr.stop - rr.start + 1)).countP (fun s => 0 < s) := by
      rw [List.countP_map]
      rfl
    rw [hc1, hc2, hsizes, List.countP_map]
    have hc3 : (List.range n).countP
          ((fun s : Int => decide (0 < s)) ∘ fun j : ℕ => if j < t then (1 : Int) else 0)
        = (List.range n).countP (fun j => decide (j < t)) := by
      refine List.countP_congr ?_
      intro j hj
      simp only [Function.comp_apply]
      split_ifs with h <;> simp [h]
    rw [hc3, countP_range_lt]
    omega
  · intro rr hrr hlt
    rcases hsize01 rr hrr with h | h <;> omega

theorem auto_partition_small_total_amended_witness :
    0 < 2 ∧ 2 < 3 ∧ (calculate_row_ranges 2 3).countP (fun rr => rr.start ≤ rr.stop) = 2 :=
  ⟨by decide, by decide, (auto_partition_small_total_amended 2 3 (by decide) (by decide)).2.2.1⟩

/-! ## Serializer cadence and the process_dataframe checkpoint loop
(S_serializer.py should_checkpoint, P_processor.py process_dataframe) -/

/-- `Serializer.should_checkpoint(current_row_count, total_rows)`:
true when the count is a multiple of `checkpoint_interval` or equals the
total.  (Python raises on `checkpoint_interval = 0`; theorems using the
modulo semantics assume a positive interval where needed.) -/
def should_checkpoint (checkpoint_interval current_row_count total_rows : ℕ) : Bool :=
  current_row_count % checkpoint_interval == 0 || current_row_count == total_rows

/-- One checkpoint part as written by the loop in
`Processor.process_dataframe`: its 1-based sequential number
(`checkpoint_counter`), the processed-row count at which it was saved
(`current_row_num`), and the rows it contains
(`row_indices[last_checkpoint_row:current_row_num]`). -/
structure Part where
  num : ℕ
  count : ℕ
  rows : List ℕ
deriving DecidableEq, Repr

/-- Contiguous batches of `b` rows, as produced by
`for i in range(0, len(row_indices), batch_size)`.  The `fuel` argument
makes the recursion structural; `chunks` below supplies enough fuel for
the loop to consume the whole list. -/
def chunksAux {α : Type} (b : ℕ) : ℕ → List α → List (List α)
  | _, [] => []
  | 0, _ :: _ => []
  | fuel + 1, x :: xs => (x :: xs).take b :: chunksAux b fuel ((x :: xs).drop b)

def chunks {α : Type} (b : ℕ) (l : List α) : List (List α) :=
  chunksAux b l.length l

/-- The checkpoint logic of `Processor.process_dataframe`, one step per
batch: `processed` is `len(results)` before the batch, `counter` the
`checkpoint_counter`, `buffer` the rows accumulated since
`last_checkpoint_row`.  A part is emitted when `should_checkpoint` fires
and `new_results_count > 0`. -/
def partsAux (interval total : ℕ) :
    List (List ℕ) → ℕ → ℕ → List ℕ → List Part
  | [], _, _, _ => []
  | batch :: rest, processed, counter, buffer =>
      let processed' := processed + batch.length
      let buffer' := buffer ++ batch
      if should_checkpoint interval processed' total then
        if 0 < buffer'.length then
          ⟨counter + 1, processed', buffer'⟩
            :: partsAux interval total rest processed' (counter + 1) []
        else
          partsAux interval total rest processed' counter buffer'
      else
        partsAux interval total rest processed' counter buffer'

/-- The checkpoint parts written by one run of
`Processor.process_dataframe` over `rows` (the ordered RowIDs of the
input dataframe slice). -/
def process_dataframe_parts (rows : List ℕ) (batch_size interval : ℕ) :
    List Part :=
  partsAux interval rows.length (chunks batch_size rows) 0 0 []

theorem chunksAux_flatten {α : Type} (b : ℕ) (hb : 1 ≤ b) :
    ∀ (fuel : ℕ) (l : List α), l.length ≤ fuel →
      (chunksAux b fuel l).flatten = l := by
  intro fuel
  induction fuel with
  | zero =>
      intro l hl
      cases l with
      | nil => rfl
      | cons x xs => simp at hl
  | succ fuel ih =>
      intro l hl
      cases l with
      | nil => rfl
      | cons x xs =>
          simp only [chunksAux, List.flatten_cons]
          rw [ih ((x :: xs).drop b) ?_, List.take_append_drop]
          simp only [List.length_cons] at hl
          rw [List.length_drop]
          simp only [List.length_cons]
          omega

theorem chunksAux_ne_nil {α : Type} (b : ℕ) (hb : 1 ≤ b) :
    ∀ (fuel : ℕ) (l : List α) (c : List α), c ∈ chunksAux b fuel l → c ≠ [] := by
  intro fuel
  induction fuel with
  | zero =>
      intro l c hc
      cases l with
      | nil => simp [chunksAux] at hc
      | cons x xs => simp [chunksAux] at hc
  | succ fuel ih =>
      intro l c hc
      cases l with
      | nil => simp [chunksAux] at hc
      | cons x xs =>
          simp only [chunksAux, List.mem_cons] at hc
          rcases hc with hc | hc
          · subst hc
            cases b with
            | zero => omega
            | succ m => simp
          · exact ih _ _ hc

theorem chunks_flatten {α : Type} (b : ℕ) (hb : 1 ≤ b) (l : List α) :
    (chunks b l).flatten = l :=
  chunksAux_flatten b hb l.length l le_rfl

theorem chunks_ne_nil {α : Type} (b : ℕ) (hb : 1 ≤ b) (l : List α) :
    ∀ c ∈ chunks b l, c ≠ [] :=
  fun c hc => chunksAux_ne_nil b hb l.length l c hc

theorem should_checkpoint_total (interval total : ℕ) :
    should_checkpoint interval total total = true := by
  simp [should_checkpoint]

theorem partsAux_cons (interval total : ℕ) (batch : List ℕ)
    (rest : List (List ℕ)) (processed counter : ℕ) (buffer : List ℕ) :
    partsAux interval total (batch :: rest) processed counter buffer
      = if should_checkpoint interval (processed + batch.length) total = true then
          if 0 < (buffer ++ batch).length then
            ⟨counter + 1, processed + batch.length, buffer ++ batch⟩
              :: partsAux interval total rest (processed + batch.length)
                  (counter + 1) []
          else
            partsAux interval total rest (processed + batch.length) counter
              (buffer ++ batch)
        else
          partsAux interval total rest (processed + batch.length) counter
            (buffer ++ batch) := rfl

/-- The parts' contents concatenate, in order, to exactly the rows the
loop was run over: the pending buffer plus all remaining batches. -/
theorem partsAux_flatten (interval total : ℕ) :
    ∀ (batches : List (List ℕ)) (processed counter : ℕ) (buffer : List ℕ),
      processed + (batches.map List.length).sum = total →
      (∀ batch ∈ batches, batch ≠ []) →
      (batches = [] → buffer = []) →
      ((partsAux interval total batches processed counter buffer).map Part.rows).flatten
        = buffer ++ batches.flatten := by
  intro batches
  induction batches with
  | nil =>
      intro processed counter buffer h1 h2 h3
      simp [partsAux, h3 rfl]
  | cons batch rest ih =>
      intro processed counter buffer h1 h2 h3
      have hbatch : batch ≠ [] := h2 batch (List.mem_cons_self _ _)
      have hbuf : 0 < (buffer ++ batch).length := by
        rw [List.length_append]
        cases batch with
        | nil => exact absurd rfl hbatch
        | cons y ys => simp
      rw [partsAux_cons]
      cases rest with
      | nil =>
          have htot : processed + batch.length = total := by
            simp at h1; omega
          rw [htot, if_pos (should_checkpoint_total interval total), if_pos hbuf]
          simp [partsAux]
      | cons b2 rest2 =>
          have h1' : (processed + batch.length)
              + ((b2 :: rest2).map List.length).sum = total := by
            simp at h1 ⊢; omega
          have h2' : ∀ c ∈ b2 :: rest2, c ≠ [] :=
            fun c hc => h2 c (List.mem_cons_of_mem _ hc)
          by_cases hC : should_checkpoint interval (processed + batch.length) total = true
          · rw [if_pos hC, if_pos hbuf, List.map_cons, List.flatten_cons,
              ih (processed + batch.length) (counter + 1) [] h1' h2'
                (fun h => by simp at h)]
            simp
          · rw [if_neg hC,
              ih (processed + batch.length) counter (buffer ++ batch) h1' h2'
                (fun h => by simp at h)]
            simp

/-- Part numbers are the consecutive integers `counter+1, counter+2, ...`. -/
theorem partsAux_nums (interval total : ℕ) :
    ∀ (batches : List (List ℕ)) (processed counter : ℕ) (buffer : List ℕ),
      (partsAux interval total batches processed counter buffer).map Part.num
        = List.range' (counter + 1)
            (partsAux interval total batches processed counter buffer).length := by
  intro batches
  induction batches with
  | nil => intro processed counter buffer; rfl
  | cons batch rest ih =>
      intro processed counter buffer
      rw [partsAux_cons]
      by_cases hC : should_checkpoint interval (processed + batch.length) total = true
      · by_cases hB : 0 < (buffer ++ batch).length
        · rw [if_pos hC, if_pos hB, List.map_cons, List.length_cons, ih]
          rfl
        · rw [if_pos hC, if_neg hB]
          exact ih _ _ _
      · rw [if_neg hC]
        exact ih _ _ _

/-- C4: one run of `process_dataframe` writes checkpoint parts that
partition the processed rows in order with no overlap and no gap, with
part numbers `1, 2, 3, ...` consecutive, and (for an input slice whose
RowID sequence is strictly increasing, as the worker loads it) every
RowID of a later part strictly greater than every RowID of any earlier
part. -/
theorem process_dataframe_checkpoint_partition (rows : List ℕ)
    (batch_size interval : ℕ) (hb : 1 ≤ batch_size) :
    ((process_dataframe_parts rows batch_size interval).map Part.rows).flatten
      = rows ∧
    (process_dataframe_parts rows batch_size interval).map Part.num
      = List.range' 1 (process_dataframe_parts rows batch_size interval).length ∧
    (List.Chain' (· < ·) rows →
      List.Pairwise (fun p q : Part => ∀ a ∈ p.rows, ∀ c ∈ q.rows, a < c)
        (process_dataframe_parts rows batch_size interval)) := by
  have hsum : 0 + ((chunks batch_size rows).map List.length).sum = rows.length := by
    rw [Nat.zero_add, ← List.length_flatten, chunks_flatten batch_size hb]
  have hflat : ((process_dataframe_parts rows batch_size interval).map
      Part.rows).flatten = rows := by
    simp only [process_dataframe_parts]
    rw [partsAux_flatten interval rows.length (chunks batch_size rows) 0 0 []
      hsum (chunks_ne_nil batch_size hb rows) (fun _ => rfl)]
    simp [chunks_flatten batch_size hb]
  refine ⟨hflat, ?_, ?_⟩
  · simp only [process_dataframe_parts]
    exact partsAux_nums _ _ _ _ _ _
  · intro hchain
    have hpw : List.Pairwise (· < ·) rows := List.chain'_iff_pairwise.mp hchain
    rw [← hflat] at hpw
    have := (List.pairwise_flatten.mp hpw).2
    have h2 : List.Pairwise
        (fun A B : List ℕ => ∀ a ∈ A, ∀ c ∈ B, a < c)
        ((process_dataframe_parts rows batch_size interval).map Part.rows) := this
    exact (List.pairwise_map.mp h2).imp (fun h => h)

theorem process_dataframe_checkpoint_partition_witness :
    1 ≤ 2 ∧
    ((process_dataframe_parts [3, 5, 8, 13] 2 3).map Part.rows).flatten
      = [3, 5, 8, 13] ∧
    List.Pairwise (fun p q : Part => ∀ a ∈ p.rows, ∀ c ∈ q.rows, a < c)
      (process_dataframe_parts [3, 5, 8, 13] 2 3) :=
  ⟨by decide,
   (process_dataframe_checkpoint_partition [3, 5, 8, 13] 2 3 (by decide)).1,
   (process_dataframe_checkpoint_partition [3, 5, 8, 13] 2 3 (by decide)).2.2
     (by norm_num [List.chain'_cons, List.chain'_singleton])⟩

set_option maxRecDepth 40000 in
/-- C6 counterexample: with `checkpoint_interval = 50`, 120 rows and
batch size 7 the run does NOT produce parts at processed-row counts
50, 100, 120: the batch ends are multiples of 7, none of which is a
multiple of 50 below 120, so a single part (number 1) is flushed at 120. -/
theorem checkpoint_cadence_counterexample :
    (process_dataframe_parts (List.range' 1 120) 7 50).map
        (fun p => (p.num, p.count))
      = [(1, 120)] ∧
    (process_dataframe_parts (List.range' 1 120) 7 50).map
        (fun p => (p.num, p.count))
      ≠ [(1, 50), (2, 100), (3, 120)] := by
  constructor
  · decide
  · decide

set_option maxRecDepth 40000 in
/-- C6 amended: `should_checkpoint(processed_count, total)` is true exactly
when `processed_count` is a multiple of `checkpoint_interval` or equals
`total`; consequently, for every batch size DIVIDING 50, a run over 120
rows with `checkpoint_interval = 50` produces checkpoint parts at
processed-row counts 50, 100 and 120, numbered 1, 2 and 3.
(`should_checkpoint` is consulted only at batch-end counts; a batch size
dividing 50 makes 50 and 100 batch ends.  Other batch sizes can yield
other cadences: batch size 7 produces a single part at 120, see the
counterexample.) -/
theorem checkpoint_cadence_amended (interval c t : ℕ) :
    (should_checkpoint interval c t = true ↔ (interval ∣ c ∨ c = t)) ∧
    (∀ b : ℕ, b ∣ 50 →
      (process_dataframe_parts (List.range' 1 120) b 50).map
          (fun p => (p.num, p.count))
        = [(1, 50), (2, 100), (3, 120)]) := by
  constructor
  · simp only [should_checkpoint, Bool.or_eq_true, beq_iff_eq]
    constructor
    · rintro (h | h)
      · left
        exact Nat.dvd_of_mod_eq_zero h
      · right
        exact h
    · rintro (h | h)
      · left
        obtain ⟨k, rfl⟩ := h
        exact Nat.mul_mod_right interval k
      · right
        exact h
  · intro b hdvd
    have hb1 : 0 < b := Nat.pos_of_dvd_of_pos hdvd (by norm_num)
    have hb50 : b ≤ 50 := Nat.le_of_dvd (by norm_num) hdvd
    interval_cases b <;> revert hdvd <;> decide

set_option maxRecDepth 40000 in
theorem checkpoint_cadence_amended_witness :
    (10 ∣ 50) ∧
    (process_dataframe_parts (List.range' 1 120) 10 50).map
        (fun p => (p.num, p.count))
      = [(1, 50), (2, 100), (3, 120)] :=
  ⟨by norm_num, (checkpoint_cadence_amended 50 50 120).2 10 (by norm_num)⟩

/-! ## Serializer file operations
(S_serializer.py: get_checkpoint_filename, save_checkpoint,
find_last_checkpoint, merge_checkpoints) -/

/-- Decimal digit character. -/
def digitChar (d : ℕ) : Char := Char.ofNat (48 + d)

/-- Decimal digits of `n`, most significant first; `fuel` bounds the
recursion (any `fuel > n` is enough). -/
def natDigitsAux : ℕ → ℕ → List Char
  | 0, _ => []
  | fuel + 1, n =>
      if n < 10 then [digitChar n]
      else natDigitsAux fuel (n / 10) ++ [digitChar (n % 10)]

/-- Python `f"{n:04d}"`: the decimal digits of `n` left-padded with zeros
to at least 4 characters. -/
def pad4 (n : ℕ) : String :=
  let ds := natDigitsAux (n + 1) n
  if ds.length < 4 then
    String.mk (List.replicate (4 - ds.length) (digitChar 0) ++ ds)
  else String.mk ds

/-- `Serializer.get_checkpoint_filename(job_id, checkpoint_num)`. -/
def get_checkpoint_filename (checkpoint_dir job_id : String)
    (checkpoint_num : ℕ) : String :=
  checkpoint_dir ++ "/checkpoint_" ++ job_id ++ "_part"
    ++ pad4 checkpoint_num ++ ".csv"

/-- A filesystem mutation, for tracing what the serializer does on disk. -/
inductive FsOp where
  | write (path : String)
  | rename (src dst : String)
deriving DecidableEq, Repr

/-- The filesystem trace of `Serializer.save_checkpoint(df_chunk, job_id,
checkpoint_num, metadata)`: after appending metadata columns in memory it
calls `df_chunk.to_csv(checkpoint_file, index=False)`, a single direct
write to the final checkpoint path.  No temporary path and no rename
appears anywhere in the method. -/
def save_checkpoint_ops (checkpoint_dir job_id : String)
    (checkpoint_num : ℕ) : List FsOp :=
  [FsOp.write (get_checkpoint_filename checkpoint_dir job_id checkpoint_num)]

/-- `Serializer.find_last_checkpoint(job_id)`.  `checkpoint_files` is the
glob result for `checkpoint_{job_id}_part*.csv`; `parse_num` models
`int(f.stem.split("part")[1])`, returning `none` when that raises (the
`except: continue` path); `read_rowids` models reading the RowID column of
a file, returning `none` when `pd.read_csv` raises.  Python `max` over the
non-empty number list is `foldl max 0`. -/
def find_last_checkpoint (checkpoint_dir job_id : String)
    (checkpoint_files : List String)
    (parse_num : String → Option ℕ)
    (read_rowids : String → Option (List ℤ)) : Option String × ℤ :=
  if checkpoint_files = [] then (none, 0)
  else
    let checkpoint_nums := checkpoint_files.filterMap parse_num
    if checkpoint_nums = [] then (none, 0)
    else
      let last_num := checkpoint_nums.foldl max 0
      let last_file := get_checkpoint_filename checkpoint_dir job_id last_num
      match read_rowids last_file with
      | some rowids =>
          match rowids.getLast? with
          | some rid => (some last_file, rid)
          | none => (none, 0)
      | none => (none, 0)

/-- `Serializer.merge_checkpoints(job_id, output_path)`: returns the
success flag together with the content written to `output_path`
(`none` = the output file is not created or overwritten).
`checkpoint_files` is the sorted glob result; `read` models
`pd.read_csv` on one part, `none` when it raises (the per-file
`except` path). -/
def merge_checkpoints (checkpoint_files : List String)
    (read : String → Option (List ℤ)) : Bool × Option (List ℤ) :=
  if checkpoint_files = [] then (false, none)
  else
    let dfs := checkpoint_files.filterMap read
    if dfs = [] then (false, none)
    else (true, some dfs.flatten)

theorem foldl_max_init_le : ∀ (l : List ℕ) (a : ℕ), a ≤ l.foldl max a := by
  intro l
  induction l with
  | nil => intro a; exact le_refl a
  | cons x xs ih =>
      intro a
      calc a ≤ max a x := le_max_left a x
        _ ≤ xs.foldl max (max a x) := ih (max a x)

theorem mem_le_foldl_max : ∀ (l : List ℕ) (a : ℕ), ∀ x ∈ l, x ≤ l.foldl max a := by
  intro l
  induction l with
  | nil => intro a x hx; simp at hx
  | cons y ys ih =>
      intro a x hx
      rcases List.mem_cons.mp hx with h | h
      · subst h
        calc x ≤ max a x := le_max_right a x
          _ ≤ ys.foldl max (max a x) := foldl_max_init_le ys (max a x)
      · exact ih (max a y) x h

/-- C3: the filesystem trace of `save_checkpoint` is a single direct write
to the final `part{NNNN}` path; no rename (hence no temporary-then-rename
protocol) occurs.  This exhibits the divergence from the atomicity
contract, which demands a sibling temporary path plus a rename. -/
theorem save_checkpoint_not_atomic :
    save_checkpoint_ops "checkpoints" "job7" 1
      = [FsOp.write "checkpoints/checkpoint_job7_part0001.csv"] ∧
    (∀ (dir job : String) (n : ℕ) (src dst : String),
      FsOp.rename src dst ∉ save_checkpoint_ops dir job n) := by
  constructor
  · decide
  · intro dir job n src dst h
    simp [save_checkpoint_ops] at h

/-- C7: `find_last_checkpoint` returns `(none, 0)` when no file matches;
otherwise it selects the maximum parsed part number, returning that
part's canonical path and trailing RowID; and a candidate whose part
number fails to parse is skipped without affecting the result computed
from the remaining candidates. -/
theorem find_last_checkpoint_spec (dir job : String)
    (parse : String → Option ℕ) (read : String → Option (List ℤ)) :
    (∀ files : List String, files = [] →
      find_last_checkpoint dir job files parse read = (none, 0)) ∧
    (∀ (files : List String) (rowids : List ℤ) (rid : ℤ),
      files.filterMap parse ≠ [] →
      read (get_checkpoint_filename dir job
          ((files.filterMap parse).foldl max 0)) = some rowids →
      rowids.getLast? = some rid →
      find_last_checkpoint dir job files parse read
        = (some (get_checkpoint_filename dir job
            ((files.filterMap parse).foldl max 0)), rid)
      ∧ ∀ m ∈ files.filterMap parse, m ≤ (files.filterMap parse).foldl max 0) ∧
    (∀ (l1 l2 : List String) (c : String), parse c = none →
      find_last_checkpoint dir job (l1 ++ c :: l2) parse read
        = find_last_checkpoint dir job (l1 ++ l2) parse read) := by
  refine ⟨?_, ?_, ?_⟩
  · intro files hf
    subst hf
    rfl
  · intro files rowids rid hne hread hlast
    have hfilesne : files ≠ [] := by
      intro h
      subst h
      exact hne rfl
    constructor
    · simp only [find_last_checkpoint, if_neg hfilesne, if_neg hne, hread, hlast]
    · exact mem_le_foldl_max (files.filterMap parse) 0
  · intro l1 l2 c hc
    have hmaps : (l1 ++ c :: l2).filterMap parse = (l1 ++ l2).filterMap parse := by
      simp [List.filterMap_append, List.filterMap_cons, hc]
    by_cases h12 : l1 ++ l2 = []
    · have hl1 : l1 = [] := by
        cases l1 with
        | nil => rfl
        | cons a as => simp at h12
      have hl2 : l2 = [] := by
        rw [hl1] at h12
        simpa using h12
      subst hl1; subst hl2
      simp [find_last_checkpoint, List.filterMap_cons, hc]
    · have hcne : l1 ++ c :: l2 ≠ [] := by
        cases l1 with
        | nil => simp
        | cons a as => simp
      simp only [find_last_checkpoint, if_neg hcne, if_neg h12, hmaps]

theorem find_last_checkpoint_spec_witness :
    ((["f1", "f2", "zz"].filterMap
        (fun s => if s = "f1" then some 1 else if s = "f2" then some 2 else none))
      ≠ []) ∧
    find_last_checkpoint "ckpt" "j" ["f1", "f2", "zz"]
        (fun s => if s = "f1" then some 1 else if s = "f2" then some 2 else none)
        (fun f => if f = "ckpt/checkpoint_j_part0002.csv"
          then some [10, 20] else none)
      = (some "ckpt/checkpoint_j_part0002.csv", 20) := by
  refine ⟨by decide, ?_⟩
  have h := ((find_last_checkpoint_spec "ckpt" "j"
      (fun s => if s = "f1" then some 1 else if s = "f2" then some 2 else none)
      (fun f => if f = "ckpt/checkpoint_j_part0002.csv"
        then some [10, 20] else none)).2.1
    ["f1", "f2", "zz"] [10, 20] 20 (by decide) (by decide) (by decide)).1
  exact h.trans (by decide)

/-- C10: `merge_checkpoints` returns false and writes nothing when no file
matches the pattern or none of the matching files loads; it writes the
concatenation of the successfully loaded parts and returns true exactly
when at least one part loads. -/
theorem merge_checkpoints_spec (files : List String)
    (read : String → Option (List ℤ)) :
    (files.filterMap read = [] →
      merge_checkpoints files read = (false, none)) ∧
    ((merge_checkpoints files read).1 = true ↔ files.filterMap read ≠ []) ∧
    ((merge_checkpoints files read).2 ≠ none ↔ files.filterMap read ≠ []) ∧
    (files.filterMap read ≠ [] →
      merge_checkpoints files read
        = (true, some (files.filterMap read).flatten)) := by
  by_cases hf : files = []
  · subst hf
    refine ⟨fun _ => rfl, by simp [merge_checkpoints], by simp [merge_checkpoints], ?_⟩
    intro h
    simp at h
  · by_cases hd : files.filterMap read = []
    · refine ⟨?_, ?_, ?_, ?_⟩
      · intro h
        simp [merge_checkpoints, hf, hd]
      · simp [merge_checkpoints, hf, hd]
      · simp [merge_checkpoints, hf, hd]
      · intro h
        exact absurd hd h
    · refine ⟨fun h => absurd h hd, ?_, ?_, ?_⟩
      · simp only [merge_checkpoints, if_neg hf, if_neg hd]
        simp [hd]
      · simp only [merge_checkpoints, if_neg hf, if_neg hd]
        simp [hd]
      · intro _
        simp only [merge_checkpoints, if_neg hf, if_neg hd]

theorem merge_checkpoints_spec_witness :
    ((["a", "b"].filterMap
        (fun f => if f = "a" then some [(1 : ℤ), 2] else none)) ≠ []) ∧
    merge_checkpoints ["a", "b"]
        (fun f => if f = "a" then some [(1 : ℤ), 2] else none)
      = (true, some [1, 2]) := by
  refine ⟨by decide, ?_⟩
  have h := (merge_checkpoints_spec ["a", "b"]
      (fun f => if f = "a" then some [(1 : ℤ), 2] else none)).2.2.2 (by decide)
  exact h.trans (by decide)

/-! ## Processor: batch length reconciliation and validation
(P_processor.py, process_batch and validate_processed_data).
Parsed JSON objects are modelled as ordered string-to-string maps; only
the configured output columns and the string sentinels compared against
them are relevant to the claims. -/

/-- A parsed JSON object restricted to string fields. -/
abbrev Record := List (String × String)

/-- Python `dict.get(key)`. -/
def recGet (r : Record) (key : String) : Option String :=
  (r.find? (fun kv => kv.1 == key)).map (fun kv => kv.2)

/-- Python `dict.get(key, default)`. -/
def recGetD (r : Record) (key dflt : String) : String :=
  (recGet r key).getD dflt

/-- Python `key in dict`. -/
def recHas (r : Record) (key : String) : Bool :=
  (recGet r key).isSome

/-- Python `dict[key] = val` for a key already present. -/
def recSet (r : Record) (key val : String) : Record :=
  r.map (fun kv => if kv.1 == key then (kv.1, val) else kv)

/-- Step 1 loop of `validate_processed_data`: with the primary indicator
at `N`, every other configured column is coerced to `-` unless it is
already `-` or `ERROR_MISSING_KEY`. -/
def validate_step1 : Record → List String → Record
  | pd, [] => pd
  | pd, col :: rest =>
      let current_value := recGetD pd col ""
      if current_value = "-" ∨ current_value = "ERROR_MISSING_KEY" then
        validate_step1 pd rest
      else
        validate_step1 (recSet pd col "-") rest

/-- Step 2a of `validate_processed_data`: the
`Comparative_Mention / Competitor_Named / Competitive_Position`
relationship corrections. -/
def fix_competitor (pd : Record) : Record :=
  if recHas pd "Comparative_Mention" ∧ recHas pd "Competitor_Named" then
    if recGet pd "Comparative_Mention" = some "Y" then
      let v := recGetD pd "Competitor_Named" ""
      if v = "NONE" ∨ v = "-" ∨ v = "" then
        recSet pd "Competitor_Named" "Other"
      else pd
    else if recGet pd "Comparative_Mention" = some "N" then
      let pd2 :=
        if recGetD pd "Competitor_Named" "" ≠ "NONE" then
          recSet pd "Competitor_Named" "NONE"
        else pd
      if recHas pd2 "Competitive_Position" ∧
          recGetD pd2 "Competitive_Position" "" ≠ "-" then
        recSet pd2 "Competitive_Position" "-"
      else pd2
    else pd
  else pd

/-- Step 2b of `validate_processed_data`: the
`Abandonment_Mentioned / Abandonment_Reason` relationship correction. -/
def fix_abandonment (pd : Record) : Record :=
  if recHas pd "Abandonment_Mentioned" ∧ recHas pd "Abandonment_Reason" then
    if recGet pd "Abandonment_Mentioned" = some "N" ∧
        recGetD pd "Abandonment_Reason" "" ≠ "NONE" then
      recSet pd "Abandonment_Reason" "NONE"
    else pd
  else pd

/-- `Processor.validate_processed_data(processed_data, row_id)`.  Step 3
(permissive categorical validation) only logs and never modifies
`processed_data`, so it contributes nothing here. -/
def validate_processed_data (columns_to_code : List String) (pd : Record) :
    Record :=
  match columns_to_code.head? with
  | some first_column =>
      if recGet pd first_column = some "N" then
        validate_step1 pd columns_to_code.tail
      else
        fix_abandonment (fix_competitor pd)
  | none => fix_abandonment (fix_competitor pd)

/-- The per-result body of the `for i, (idx, row) in enumerate(rows.iterrows())`
loop in `process_batch`: `NOT_APPLICABLE` handling on the first configured
column, column extraction with the `ERROR_MISSING_KEY` default, then
validation. -/
def process_one_result (columns_to_code : List String)
    (not_applicable_defaults : Record) (result : Record) : Record :=
  match columns_to_code.head? with
  | some first_column =>
      if recGet result first_column = some "NOT_APPLICABLE" then
        not_applicable_defaults
      else
        validate_processed_data columns_to_code
          (columns_to_code.map
            (fun col => (col, recGetD result col "ERROR_MISSING_KEY")))
  | none => validate_processed_data [] []

/-- The tail of `Processor.process_batch` after a successful JSON parse
of the model response into `results_array`: length reconciliation (pad
with `ERROR_BATCH_MISMATCH` records, or truncate, to exactly
`batch_size`), then per-record processing. -/
def process_batch_reconcile (columns_to_code : List String)
    (not_applicable_defaults : Record) (batch_size : ℕ)
    (results_array : List Record) : List Record :=
  let padded := results_array
    ++ List.replicate (batch_size - results_array.length)
        (columns_to_code.map (fun col => (col, "ERROR_BATCH_MISMATCH")))
  (padded.take batch_size).map
    (process_one_result columns_to_code not_applicable_defaults)

theorem recGet_map_self (f : String → String) :
    ∀ (cols : List String) (c : String), c ∈ cols →
      recGet (cols.map (fun col => (col, f col))) c = some (f c) := by
  intro cols
  induction cols with
  | nil => intro c hc; simp at hc
  | cons col rest ih =>
      intro c hc
      rcases List.mem_cons.mp hc with h | h
      · subst h
        simp [recGet, List.find?]
      · by_cases hcc : col = c
        · subst hcc
          simp [recGet, List.find?]
        · simp only [recGet, List.map_cons, List.find?]
          rw [show ((col, f col).1 == c) = false by
            simp [hcc]]
          exact ih c h

theorem recGet_const_map (val : String) :
    ∀ (cols : List String) (k : String) (v : String),
      recGet (cols.map (fun col => (col, val))) k = some v → v = val := by
  intro cols
  induction cols with
  | nil => intro k v h; simp [recGet] at h
  | cons col rest ih =>
      intro k v h
      simp only [recGet, List.map_cons, List.find?] at h
      by_cases hk : (col == k) = true
      · simp only [hk] at h
        simp at h
        exact h.symm
      · rw [Bool.not_eq_true] at hk
        simp only [hk] at h
        exact ih k v h

theorem fix_competitor_eq_self (pd : Record)
    (h : ∀ k v, recGet pd k = some v → v = "ERROR_BATCH_MISMATCH") :
    fix_competitor pd = pd := by
  have hY : recGet pd "Comparative_Mention" ≠ some "Y" :=
    fun hc => absurd (h _ _ hc) (by decide)
  have hN : recGet pd "Comparative_Mention" ≠ some "N" :=
    fun hc => absurd (h _ _ hc) (by decide)
  unfold fix_competitor
  split_ifs <;>
    first
      | rfl
      | (exact absurd (by assumption) hY)
      | (exact absurd (by assumption) hN)

theorem fix_abandonment_eq_self (pd : Record)
    (h : ∀ k v, recGet pd k = some v → v = "ERROR_BATCH_MISMATCH") :
    fix_abandonment pd = pd := by
  unfold fix_abandonment
  split_ifs with hk h2
  · exact absurd (h _ _ h2.1) (by decide)
  · rfl
  · rfl

theorem validate_eq_self (cols : List String) (pd : Record)
    (h : ∀ k v, recGet pd k = some v → v = "ERROR_BATCH_MISMATCH") :
    validate_processed_data cols pd = pd := by
  cases cols with
  | nil =>
      simp only [validate_processed_data, List.head?]
      rw [fix_competitor_eq_self pd h, fix_abandonment_eq_self pd h]
  | cons a as =>
      simp only [validate_processed_data, List.head?]
      rw [if_neg (show ¬recGet pd a = some "N" from
            fun hc => absurd (h _ _ hc) (by decide)),
        fix_competitor_eq_self pd h, fix_abandonment_eq_self pd h]

/-- The all-sentinel record produced by padding is a fixed point of the
per-record processing: `NOT_APPLICABLE` does not fire, every configured
column extracts to the sentinel, and validation changes nothing. -/
theorem process_one_result_error_record (cols : List String) (d : Record) :
    process_one_result cols d
        (cols.map (fun col => (col, "ERROR_BATCH_MISMATCH")))
      = cols.map (fun col => (col, "ERROR_BATCH_MISMATCH")) := by
  have hext : cols.map
      (fun col => (col, recGetD
        (cols.map (fun c => (c, "ERROR_BATCH_MISMATCH"))) col "ERROR_MISSING_KEY"))
      = cols.map (fun col => (col, "ERROR_BATCH_MISMATCH")) := by
    refine List.map_congr_left ?_
    intro c hc
    rw [show recGetD (cols.map (fun c => (c, "ERROR_BATCH_MISMATCH"))) c
          "ERROR_MISSING_KEY" = "ERROR_BATCH_MISMATCH" from by
      unfold recGetD
      rw [recGet_map_self _ cols c hc]
      rfl]
  cases hcols : cols with
  | nil => rfl
  | cons a as =>
      have hfirst : a ∈ cols := by
        rw [hcols]
        exact List.mem_cons_self _ _
      rw [← hcols]
      have hhead : cols.head? = some a := by rw [hcols]; rfl
      simp only [process_one_result, hhead]
      rw [if_neg (show ¬recGet (cols.map (fun col => (col, "ERROR_BATCH_MISMATCH")))
            a = some "NOT_APPLICABLE" from by
        rw [recGet_map_self _ cols a hfirst]
        decide)]
      rw [hext, validate_eq_self cols _ (recGet_const_map _ cols)]

/-- C5: for a batch whose model response parses to a JSON array,
`process_batch` returns exactly `batch_size` records: a shorter array is
padded at the tail with records whose every configured output column is
`ERROR_BATCH_MISMATCH` (and such records survive processing unchanged),
a longer array is truncated to its first `batch_size` elements. -/
theorem process_batch_length_reconciliation (cols : List String) (d : Record)
    (batch_size : ℕ) (arr : List Record) :
    (process_batch_reconcile cols d batch_size arr).length = batch_size ∧
    (arr.length ≤ batch_size →
      process_batch_reconcile cols d batch_size arr
        = arr.map (process_one_result cols d)
          ++ List.replicate (batch_size - arr.length)
              (cols.map (fun col => (col, "ERROR_BATCH_MISMATCH")))) ∧
    (∀ col ∈ cols,
      recGet (cols.map (fun c => (c, "ERROR_BATCH_MISMATCH"))) col
        = some "ERROR_BATCH_MISMATCH") ∧
    (batch_size ≤ arr.length →
      process_batch_reconcile cols d batch_size arr
        = process_batch_reconcile cols d batch_size (arr.take batch_size)
      ∧ process_batch_reconcile cols d batch_size arr
        = (arr.take batch_size).map (process_one_result cols d)) := by
  refine ⟨?_, ?_, ?_, ?_⟩
  · simp only [process_batch_reconcile, List.length_map, List.length_take,
      List.length_append, List.length_replicate]
    omega
  · intro hle
    have hlen : (arr ++ List.replicate (batch_size - arr.length)
        (cols.map (fun col => (col, "ERROR_BATCH_MISMATCH")))).length
          = batch_size := by
      rw [List.length_append, List.length_replicate]
      omega
    simp only [process_batch_reconcile]
    rw [List.take_of_length_le (le_of_eq hlen), List.map_append,
      List.map_replicate, process_one_result_error_record]
  · intro col hcol
    exact recGet_map_self (fun _ => "ERROR_BATCH_MISMATCH") cols col hcol
  · intro hge
    have h0 : batch_size - arr.length = 0 := by omega
    have htk : (arr.take batch_size).length = batch_size := by
      rw [List.length_take]
      omega
    constructor
    · simp only [process_batch_reconcile, h0, List.replicate_zero,
        List.append_nil, htk, Nat.sub_self, List.take_take, Nat.min_self]
    · simp only [process_batch_reconcile, h0, List.replicate_zero,
        List.append_nil]

theorem process_batch_length_reconciliation_witness :
    (([[("A", "x1")], [("A", "x2")], [("A", "x3")]] : List Record).length ≤ 5) ∧
    process_batch_reconcile ["A"] [] 5
        [[("A", "x1")], [("A", "x2")], [("A", "x3")]]
      = ([[("A", "x1")], [("A", "x2")], [("A", "x3")]] : List Record).map
            (process_one_result ["A"] [])
        ++ List.replicate
            (5 - ([[("A", "x1")], [("A", "x2")], [("A", "x3")]] :
              List Record).length)
            (["A"].map (fun col => (col, "ERROR_BATCH_MISMATCH"))) :=
  ⟨by decide,
   (process_batch_length_reconciliation ["A"] [] 5
     [[("A", "x1")], [("A", "x2")], [("A", "x3")]]).2.1 (by decide)⟩

/-! ## Worker status protocol (W_worker.py: WorkerStatus, MonitorBridge,
Worker.run).  Timestamp, float, error and path fields of the status JSON
are irrelevant to the claims and are elided. -/

/-- The fields of the `worker_{id}.json` status document that the claims
are about. -/
structure WStatus where
  worker_id : ℕ
  state : String
  row_start : ℕ
  row_end : ℕ
  current_row : ℕ
  rows_processed : ℕ
  total_rows : ℕ
deriving DecidableEq, Repr

/-- The document written by `WorkerStatus.__init__` (state
`initializing`, all counters zero). -/
def initStatus (wid : ℕ) : WStatus :=
  ⟨wid, "initializing", 0, 0, 0, 0, 0⟩

/-- `self.worker_status.update(row_start=..., row_end=...)`
(Worker.run, before monitoring starts). -/
def statusUpdateRange (s : WStatus) (rs re : ℕ) : WStatus :=
  { s with row_start := rs, row_end := re }

/-- `WorkerStatus.set_running(row_start, row_end, total_rows)`. -/
def set_running (s : WStatus) (rs re total : ℕ) : WStatus :=
  { s with
    state := "running"
    row_start := rs
    row_end := re
    total_rows := total
    current_row := rs }

/-- `WorkerStatus.set_progress(current_row, rows_processed, ...)`;
`MonitorBridge.update_progress` always passes
`rows_processed = current_row = current_row_num`. -/
def set_progress (s : WStatus) (current rows : ℕ) : WStatus :=
  { s with current_row := current, rows_processed := rows }

/-- `WorkerStatus.set_completed(output_file, rows_processed)`. -/
def set_completed (s : WStatus) (rows : ℕ) : WStatus :=
  { s with state := "completed", rows_processed := rows }

/-- `WorkerStatus.set_failed(error_msg)`. -/
def set_failed (s : WStatus) : WStatus :=
  { s with state := "failed" }

/-- The `current_row_num` values at the ends of the batches of
`process_dataframe`: `min((i+1)*batch_size, total)` for each loop index. -/
def batchEnds (total b : ℕ) : List ℕ :=
  (List.range ((total + b - 1) / b)).map (fun i => min ((i + 1) * b) total)

/-- Status documents written during the batch loop of
`process_dataframe`, and the final in-memory status.  At each batch end
`c`: if `should_checkpoint` fires, `monitor.update_progress` saves the
document twice (`set_progress` calls `update` twice when metrics are
passed) and `record_checkpoint → add_checkpoint` saves it once more
(`new_results_count > 0` always holds at a firing, since batch-end
counts strictly increase past the last checkpoint). If the
progress-frequency condition holds, `update_progress` saves twice
more.  The in-memory status advances only when a save happened. -/
def progressDocs (interval total updateFreq : ℕ) :
    List ℕ → WStatus → List WStatus × WStatus
  | [], s => ([], s)
  | c :: rest, s =>
      let d := set_progress s c c
      let fire := should_checkpoint interval c total
      let freq := c % updateFreq == 0 || c == total
      let ckptDocs := if fire then [d, d, d] else []
      let freqDocs := if freq then [d, d] else []
      let s' := if fire || freq then d else s
      let tail := progressDocs interval total updateFreq rest s'
      (ckptDocs ++ freqDocs ++ tail.1, tail.2)

/-- All status documents one successful worker run writes, in order
(`Worker.run`): the `initializing` document, the row-range update, the
`running` transition, the progress/checkpoint documents of
`process_dataframe` (with `update_frequency = max(batch_size, total // 20)`),
and the final `completed` document with `rows_processed = len(results)
= total`.  A range with no rows short-circuits to `completed` with
`rows_processed = 0`. -/
def worker_run_docs (wid total b interval rs re : ℕ) : List WStatus :=
  let s0 := initStatus wid
  if total = 0 then
    [s0, set_completed s0 0]
  else
    let s1 := statusUpdateRange s0 rs re
    let s2 := set_running s1 rs re total
    let updateFreq := max b (total / 20)
    let pr := progressDocs interval total updateFreq (batchEnds total b) s2
    [s0, s1, s2] ++ pr.1 ++ [set_completed pr.2 total]

theorem batchEnds_le (total b : ℕ) : ∀ c ∈ batchEnds total b, c ≤ total := by
  intro c hc
  simp only [batchEnds, List.mem_map] at hc
  obtain ⟨i, _, hi⟩ := hc
  omega

theorem progressDocs_invariant (interval total updateFreq : ℕ) :
    ∀ (ends : List ℕ) (s : WStatus),
      (∀ c ∈ ends, c ≤ total) →
      s.total_rows = total → s.state = "running" →
      (∀ doc ∈ (progressDocs interval total updateFreq ends s).1,
        doc.rows_processed ≤ doc.total_rows ∧ doc.state = "running") ∧
      (progressDocs interval total updateFreq ends s).2.total_rows = total ∧
      (progressDocs interval total updateFreq ends s).2.state = "running" := by
  intro ends
  induction ends with
  | nil =>
      intro s hle htot hst
      exact ⟨fun doc hdoc => by simp [progressDocs] at hdoc, htot, hst⟩
  | cons c rest ih =>
      intro s hle htot hst
      have hc : c ≤ total := hle c (List.mem_cons_self _ _)
      have hrest : ∀ x ∈ rest, x ≤ total :=
        fun x hx => hle x (List.mem_cons_of_mem _ hx)
      have hd1 : (set_progress s c c).total_rows = total := by
        simp only [set_progress]
        exact htot
      have hd2 : (set_progress s c c).state = "running" := by
        simp only [set_progress]
        exact hst
      have hdrows : (set_progress s c c).rows_processed
          ≤ (set_progress s c c).total_rows := by
        simp only [set_progress]
        omega
      have hs1 : (if (should_checkpoint interval c total
            || (c % updateFreq == 0 || c == total)) = true
          then set_progress s c c else s).total_rows = total := by
        split_ifs
        · exact hd1
        · exact htot
      have hs2 : (if (should_checkpoint interval c total
            || (c % updateFreq == 0 || c == total)) = true
          then set_progress s c c else s).state = "running" := by
        split_ifs
        · exact hd2
        · exact hst
      have hnext := ih _ hrest hs1 hs2
      simp only [progressDocs]
      refine ⟨?_, hnext.2.1, hnext.2.2⟩
      intro doc hdoc
      simp only [List.mem_append] at hdoc
      rcases hdoc with (h1 | h1) | h1
      · by_cases hf : should_checkpoint interval c total = true
        · rw [if_pos hf] at h1
          simp only [List.mem_cons, List.mem_singleton, List.not_mem_nil,
            or_false] at h1
          rcases h1 with h1 | h1 | h1 <;> (subst h1; exact ⟨hdrows, hd2⟩)
        · rw [if_neg hf] at h1
          simp at h1
      · by_cases hq : (c % updateFreq == 0 || c == total) = true
        · rw [if_pos hq] at h1
          simp only [List.mem_cons, List.mem_singleton, List.not_mem_nil,
            or_false] at h1
          rcases h1 with h1 | h1 <;> (subst h1; exact ⟨hdrows, hd2⟩)
        · rw [if_neg hq] at h1
          simp at h1
      · exact hnext.1 doc h1

/-- C8 counterexample: a successful run over 2 rows writes, before its
`completed` transition, a document with `state = running` and
`rows_processed = total_rows` (the final progress update), refuting the
claimed equivalence `rows_processed = total_rows ↔ state = completed`. -/
theorem worker_status_iff_counterexample :
    ∃ doc ∈ worker_run_docs 1 2 1 50 1 2,
      doc.rows_processed = doc.total_rows ∧ doc.state ≠ "completed" := by
  decide

/-- C8 amended: in every status document a worker writes,
`rows_processed ≤ total_rows`, and `state = completed` implies
`rows_processed = total_rows`; the converse fails (see the
counterexample: initializing documents have `0 = 0` and the final
progress update has `rows_processed = total_rows` while still
`running`). -/
theorem worker_status_invariant (wid total b interval rs re : ℕ)
    (hb : 1 ≤ b) :
    ∀ doc ∈ worker_run_docs wid total b interval rs re,
      doc.rows_processed ≤ doc.total_rows ∧
      (doc.state = "completed" → doc.rows_processed = doc.total_rows) := by
  intro doc hdoc
  by_cases h0 : total = 0
  · subst h0
    simp [worker_run_docs] at hdoc
    rcases hdoc with h | h <;> subst h <;>
      exact ⟨le_refl _, fun _ => rfl⟩
  · simp only [worker_run_docs, if_neg h0] at hdoc
    have hs2tot : (set_running (statusUpdateRange (initStatus wid) rs re)
        rs re total).total_rows = total := by
      simp [set_running]
    have hs2st : (set_running (statusUpdateRange (initStatus wid) rs re)
        rs re total).state = "running" := by
      simp [set_running]
    have hinv := progressDocs_invariant interval total (max b (total / 20))
      (batchEnds total b)
      (set_running (statusUpdateRange (initStatus wid) rs re) rs re total)
      (batchEnds_le total b) hs2tot hs2st
    simp only [List.append_assoc, List.mem_append, List.mem_cons,
      List.not_mem_nil, or_false, List.mem_singleton] at hdoc
    rcases hdoc with (h | h | h) | h | h
    · subst h
      exact ⟨le_refl 0, fun _ => rfl⟩
    · subst h
      exact ⟨le_refl 0, fun _ => rfl⟩
    · subst h
      refine ⟨by rw [hs2tot]; exact Nat.zero_le _, fun hcst => ?_⟩
      rw [hs2st] at hcst
      exact absurd hcst (by decide)
    · obtain ⟨hle, hstate⟩ := hinv.1 doc h
      refine ⟨hle, fun hcst => ?_⟩
      rw [hstate] at hcst
      exact absurd hcst (by decide)
    · subst h
      have htot := hinv.2.1
      have hct : (set_completed (progressDocs interval total
          (max b (total / 20)) (batchEnds total b)
          (set_running (statusUpdateRange (initStatus wid) rs re)
            rs re total)).2 total).total_rows = total := by
        simp only [set_completed]
        exact htot
      have hcr : (set_completed (progressDocs interval total
          (max b (total / 20)) (batchEnds total b)
          (set_running (statusUpdateRange (initStatus wid) rs re)
            rs re total)).2 total).rows_processed = total := by
        simp only [set_completed]
      refine ⟨?_, fun _ => ?_⟩
      · rw [hct, hcr]
      · rw [hct, hcr]

theorem worker_status_invariant_witness :
    1 ≤ 1 ∧ (initStatus 1).rows_processed ≤ (initStatus 1).total_rows :=
  ⟨by decide,
   (worker_status_invariant 1 2 1 50 1 2 (by decide) (initStatus 1)
     (by decide)).1⟩

end PRISM
